import Mathlib

/-!
# Verification of the Thangs scraper (`scrape_thangs_playwright_fixed.py`)

A shallow embedding of the scraper's pure logic, with theorems checking the
natural-language specification against it.  Browser interaction (Playwright
page navigation, page content, scroll height) is abstracted as explicit
oracle functions; everything the script computes from those observations is
embedded faithfully.  Strings are modelled as `String`/`List Char` over the
ASCII fragment the scraper manipulates.
-/

namespace Thangs

/-! ## Character-level utilities (Python string/regex primitives)

These model the Python primitives used by `_normalize_color`:
`str.strip`, `re.sub(r"\s+", " ", ·)`, word boundaries (`\b`), and the
specific substitutions of that function.
-/

/-- Python whitespace (`\s` of `re`, default `str.strip`), ASCII fragment:
space, tab, newline, carriage return, vertical tab, form feed. -/
def pySpace (c : Char) : Bool :=
  c = ' ' || c = '\t' || c = '\n' || c = '\r' || c = Char.ofNat 11 || c = Char.ofNat 12

/-- Python word character (`\w` of `re`), ASCII fragment: letters, digits, underscore. -/
def wordChar (c : Char) : Bool :=
  c.isAlpha || c.isDigit || c = '_'

/-- Lower-case a character list, modelling Python `str.lower` on ASCII. -/
def lowerList (l : List Char) : List Char :=
  l.map Char.toLower

/-- Drop leading characters satisfying `p` (the left half of `str.strip`). -/
def trimLeftP (p : Char → Bool) (l : List Char) : List Char :=
  l.dropWhile p

/-- Drop trailing characters satisfying `p` (the right half of `str.strip`). -/
def trimRightP (p : Char → Bool) (l : List Char) : List Char :=
  (l.reverse.dropWhile p).reverse

/-- Python `str.strip()`: drop leading and trailing whitespace. -/
def pyStrip (l : List Char) : List Char :=
  trimRightP pySpace (trimLeftP pySpace l)

/-- Worker for `collapseWS`; the flag records whether the previous character
was whitespace (in which case further whitespace is absorbed into the single
space already emitted). -/
def collapseGo : Bool → List Char → List Char
  | _, [] => []
  | inSpace, c :: cs =>
    if pySpace c then
      if inSpace then collapseGo true cs else ' ' :: collapseGo true cs
    else c :: collapseGo false cs

/-- Model of `re.sub(r"\s+", " ", x)`: replace every maximal whitespace run by a single space. -/
def collapseWS (l : List Char) : List Char :=
  collapseGo false l

/-- Replacement applied to one maximal `\w`-run by `re.sub(r"\bGrey\b", "Gray", x, flags=re.I)`:
a run equal to "grey" case-insensitively becomes "Gray", anything else is kept.
(`\bGrey\b` matches exactly the maximal word runs equal to "grey".) -/
def flushGrey (run : List Char) : List Char :=
  if lowerList run = ['g', 'r', 'e', 'y'] then ['G', 'r', 'a', 'y'] else run

/-- Worker for `greySub`: accumulate the current maximal `\w`-run in `run`,
flush it through `flushGrey` at each non-word character or at the end. -/
def greyGo : List Char → List Char → List Char
  | run, [] => flushGrey run
  | run, c :: cs =>
    if wordChar c then greyGo (run ++ [c]) cs
    else flushGrey run ++ c :: greyGo [] cs

/-- Model of `re.sub(r"\bGrey\b", "Gray", x, flags=re.I)`. -/
def greySub (l : List Char) : List Char :=
  greyGo [] l

/-- Model of `re.sub(r"(?i)^Matte\b", "Matte", x)`: if the string starts with a case
variant of "matte" followed by a word boundary, canonicalize those five
characters to "Matte". -/
def matteSub (l : List Char) : List Char :=
  if ['m', 'a', 't', 't', 'e'].isPrefixOf (lowerList l) ∧ ¬ wordChar ((lowerList l).getD 5 ' ')
  then ['M', 'a', 't', 't', 'e'] ++ l.drop 5
  else l

/-- Drop trailing whitespace. -/
def trimTrailing (l : List Char) : List Char :=
  trimRightP pySpace l

/-- Model of `re.sub(r"(?i)\s*PLA\s*$", "", x)`: the pattern has no word boundary, so it
fires whenever the string, ignoring trailing whitespace, ends in a case variant
of "pla"; the leftmost match swallows the whitespace run immediately before
that "pla" and everything after it. -/
def plaSub (l : List Char) : List Char :=
  if 3 ≤ (trimTrailing l).length ∧
      lowerList ((trimTrailing l).drop ((trimTrailing l).length - 3)) = ['p', 'l', 'a'] then
    trimTrailing ((trimTrailing l).take ((trimTrailing l).length - 3))
  else l

/-- The strip set of `x.strip(" -–—·.")`. -/
def stripPunctChar (c : Char) : Bool :=
  c = ' ' || c = '-' || c = '–' || c = '—' || c = '·' || c = '.'

/-- Python `x.strip(" -–—·.")`: drop those characters from both ends. -/
def stripPunct (l : List Char) : List Char :=
  trimRightP stripPunctChar (trimLeftP stripPunctChar l)

/-- Worker for `wordCount`; the flag records whether we are inside a word. -/
def wordCountGo : Bool → List Char → Nat
  | _, [] => 0
  | inWord, c :: cs =>
    if pySpace c then wordCountGo false cs
    else (if inWord then 0 else 1) + wordCountGo true cs

/-- Python `len(x.split())`: number of maximal non-whitespace runs. -/
def wordCount (l : List Char) : Nat :=
  wordCountGo false l

/-- The cleaning pipeline of `_normalize_color`, before the final discard
check: strip, collapse whitespace, `Grey`→`Gray`, canonicalize a leading
`Matte`, drop a trailing `PLA`, strip stray punctuation/dashes. -/
def normalize_pre (c : List Char) : List Char :=
  stripPunct (plaSub (matteSub (greySub (collapseWS (pyStrip c)))))

/-- Function `_normalize_color`: clean/normalize one color name.  Mirrors the source
line by line: the cleaning pipeline `normalize_pre`, then discard any result
reducing to the bare finish word `matte` or to fewer than two words. -/
def normalize_color (c : List Char) : List Char :=
  if lowerList (normalize_pre c) = ['m', 'a', 't', 't', 'e'] ∨ wordCount (normalize_pre c) < 2
  then [] else normalize_pre c


/-! ## Page Navigator (`safe_goto`, lines 61-82) -/

/-- Playwright wait states usable as `page.goto`'s `wait_until` argument.
The constructor `networkidle` appears only so that the specification's claimed
strategy order can be stated; `safe_goto` itself never uses it. -/
inductive WaitUntil
  | domcontentloaded
  | load
  | networkidle
deriving DecidableEq

/-- The descending wait-strategy list of `safe_goto` (line 69):
`states = ["domcontentloaded", "load", None]`, where `None` stands for a
plain `page.goto` followed by a fixed 1500 ms pause. -/
def states : List (Option WaitUntil) :=
  [some WaitUntil.domcontentloaded, some WaitUntil.load, none]

/-- Retry loop of `safe_goto` over a strategy list `sts`: at attempt `i` the
strategy `sts[min(i, len(sts)-1)]` is used; `goto st` abstracts whether
`page.goto(url, wait_until=st)` returns before its timeout.  The result is
the list of strategies attempted in order, and whether some attempt
succeeded (`false` means every attempt raised `PwTimeout`, after which
`safe_goto` dumps debug artifacts and re-raises the last error). -/
def gotoLoop (sts : List (Option WaitUntil)) (goto : Option WaitUntil → Bool) :
    Nat → Nat → List (Option WaitUntil) × Bool
  | 0, _ => ([], false)
  | fuel + 1, i =>
    let st := sts.getD (min i (sts.length - 1)) none
    if goto st then ([st], true)
    else
      let r := gotoLoop sts goto fuel (i + 1)
      (st :: r.1, r.2)

/-- Navigation of `safe_goto` with its default `attempts = 3`. -/
def safe_goto (goto : Option WaitUntil → Bool) : List (Option WaitUntil) × Bool :=
  gotoLoop states goto 3 0

/-- Modelled from the spec: the strategy order the specification claims
("wait for full network idle signal first, then wait for DOM-ready signal,
then no wait condition plus a fixed pause"). -/
def statesClaimed : List (Option WaitUntil) :=
  [some WaitUntil.networkidle, some WaitUntil.domcontentloaded, none]

/-- Modelled from the spec: `safe_goto` as the specification describes it,
i.e. the same retry loop but over the claimed strategy order. -/
def safe_gotoClaimed (goto : Option WaitUntil → Bool) : List (Option WaitUntil) × Bool :=
  gotoLoop statesClaimed goto 3 0

/-! ## Listing Discoverer, paged fallback (`discover_model_urls_paged`, lines 150-167) -/

/-- Page URL of the paged fallback: `listing_url` for page 1, else
`listing_url?page=n`. -/
def pageUrl (listing : String) (n : Nat) : String :=
  if n = 1 then listing else listing ++ "?page=" ++ toString n

/-- Loop of `discover_model_urls_paged`: `fetch n` abstracts
`collect_links_from_html(page.content())` after navigating to `pageUrl`.
Returns the page numbers visited in order together with the accumulated URL
set; the loop unions each page's links into the accumulator and breaks when
a page yields no links at all (`if not found: break`). -/
def pagedAux (fetch : Nat → Finset String) :
    Nat → Nat → List Nat → Finset String → List Nat × Finset String
  | 0, _, visited, acc => (visited.reverse, acc)
  | fuel + 1, n, visited, acc =>
    if fetch n = ∅ then ((n :: visited).reverse, acc ∪ fetch n)
    else pagedAux fetch fuel (n + 1) (n :: visited) (acc ∪ fetch n)

/-- Paged-fallback discovery, pages 1 up to `max_pages` (default 20 in the source). -/
def discover_model_urls_paged (fetch : Nat → Finset String) (max_pages : Nat) :
    List Nat × Finset String :=
  pagedAux fetch max_pages 1 [] ∅

/-- Modelled from the spec: the paged loop as the specification claims it,
"stopping as soon as a page yields zero new links" (links not already in the
accumulated set). -/
def pagedAuxClaimed (fetch : Nat → Finset String) :
    Nat → Nat → List Nat → Finset String → List Nat × Finset String
  | 0, _, visited, acc => (visited.reverse, acc)
  | fuel + 1, n, visited, acc =>
    if fetch n \ acc = ∅ then ((n :: visited).reverse, acc ∪ fetch n)
    else pagedAuxClaimed fetch fuel (n + 1) (n :: visited) (acc ∪ fetch n)

/-- Modelled from the spec: paged-fallback discovery stopping on zero new links. -/
def discover_model_urls_pagedClaimed (fetch : Nat → Finset String) (max_pages : Nat) :
    List Nat × Finset String :=
  pagedAuxClaimed fetch max_pages 1 [] ∅

/-! ## Link Collector (`collect_links_from_html`, lines 84-102) -/

/-- Matcher for the tail `[^?\s]+-\d+` anchored at the end of the character
list: some nonempty prefix without `?` or whitespace, then a dash, then a
nonempty digit string reaching the end. -/
def slugNumTail (r : List Char) : Bool :=
  (List.range r.length).any fun i =>
    decide (0 < i) &&
    (r.take i).all (fun c => !(c == '?') && !(pySpace c)) &&
    (match r.drop i with
     | '-' :: v => !v.isEmpty && v.all Char.isDigit
     | _ => false)

/-- Matcher for `[^/]+/3d-model/` followed by `slugNumTail`, anchored at the
start of `r` and reaching the end of `r`. -/
def afterDesigner (r : List Char) : Bool :=
  (List.range (r.length + 1)).any fun i =>
    decide (0 < i) &&
    (r.take i).all (fun c => !(c == '/')) &&
    "/3d-model/".toList.isPrefixOf (r.drop i) &&
    slugNumTail (r.drop (i + 10))

/-- Truthiness of `MODEL_LINK_RE.search(href)` for
`re.compile(r"/designer/[^/]+/3d-model/[^?\s]+-\d+$", re.IGNORECASE)`:
some suffix of the href matches the pattern and the match ends at the end of
the string (Python's `$` also matches just before one final newline).
Case-insensitivity is modelled by lower-casing the href; the character
classes involved are stable under lower-casing. -/
def modelLinkSearch (href : String) : Bool :=
  let cs0 := href.toList
  let cs1 := if cs0.getLast? = some '\n' then cs0.dropLast else cs0
  let cs := lowerList cs1
  (List.range (cs.length + 1)).any fun k =>
    "/designer/".toList.isPrefixOf (cs.drop k) && afterDesigner (cs.drop (k + 10))

/-- Substring containment (Python's `in` on strings): `pat` occurs as a
contiguous run somewhere in `l`. -/
def containsSubstr (pat l : List Char) : Bool :=
  (List.range (l.length + 1)).any fun k => pat.isPrefixOf (l.drop k)

/-- Modelled from `urllib.parse.urljoin("https://thangs.com", href)` for the
reference shapes met here: absolute http(s) URLs are kept, scheme-relative
`//…` gets the base scheme, root-relative `/…` gets scheme and host, and any
other relative reference is resolved against the site root. -/
def urljoin (href : String) : String :=
  if "http://".toList.isPrefixOf href.toList || "https://".toList.isPrefixOf href.toList then
    href
  else if "//".toList.isPrefixOf href.toList then "https:" ++ href
  else if "/".toList.isPrefixOf href.toList then "https://thangs.com" ++ href
  else "https://thangs.com/" ++ href

/-- Model of `collect_links_from_html`, with the parsed markup abstracted as the list
of href values of its anchors (`soup.find_all("a", href=True)`) in document
order: collect the absolute URLs of hrefs matching `MODEL_LINK_RE` into a
set; if none match, fall back to hrefs containing the substring
`/3d-model/`. -/
def collect_links_from_html (hrefs : List String) : Finset String :=
  if ((hrefs.filter modelLinkSearch).map urljoin).isEmpty then
    ((hrefs.filter fun h => containsSubstr "/3d-model/".toList h.toList).map urljoin).toFinset
  else ((hrefs.filter modelLinkSearch).map urljoin).toFinset

/-! ## Color Extractor block tiers (lines 169-213) -/

/-- One parsed element as the scan loops see it: tag name, href attribute
(empty when absent), and `get_text(" ", strip=True)` text. -/
structure Tag where
  name : String
  href : String
  text : String
deriving DecidableEq

/-- BeautifulSoup `container.find_all(names, limit=lim)`: the container's
descendant elements in document order, filtered to the given tag names and
truncated to the limit. -/
def findAll (descendants : List Tag) (names : List String) (lim : Nat) : List Tag :=
  (descendants.filter fun t => names.contains t.name).take lim

/-- Inner accumulation shared by both block tiers: for each regex match `m`,
`color = m.strip()`, `key = color.lower()`, and the color is kept if the key
is unseen and the color has at least two words.  `seen` collects keys,
`colors` collects kept colors in reverse. -/
def addColors : List String → List String → List String → List String × List String
  | [], seen, colors => (seen, colors)
  | m :: ms, seen, colors =>
    let color := String.mk (pyStrip m.toList)
    let key := String.mk (lowerList color.toList)
    if key ∉ seen ∧ 2 ≤ wordCount color.toList then
      addColors ms (key :: seen) (color :: colors)
    else addColors ms seen colors

/-- Scan loop of `_extract_from_poly_block_strict` (lines 178-191): iterate
the tags, break when the tag is a heading/divider, and collect colors only
from anchors whose href matches the partner domain.  `itemsOf` abstracts
`POLY_ITEM_RE.findall` on an element's text and `polyHref` abstracts the
truthiness of `POLY_DOMAIN_RE.search` on a stripped href. -/
def strictLoop (itemsOf : String → List String) (polyHref : String → Bool) :
    List Tag → List String → List String → List String
  | [], _, colors => colors.reverse
  | t :: ts, seen, colors =>
    if t.name = "h1" ∨ t.name = "h2" ∨ t.name = "h3" ∨ t.name = "hr" then colors.reverse
    else if t.name = "a" ∧ polyHref t.href then
      let r := addColors (itemsOf t.text) seen colors
      strictLoop itemsOf polyHref ts r.1 r.2
    else strictLoop itemsOf polyHref ts seen colors

/-- Strict block tier on a located container, given its descendant elements:
the loop runs over `find_all(["a", "li", "p", "div", "span"], limit=80)`. -/
def extract_from_poly_block_strict (itemsOf : String → List String)
    (polyHref : String → Bool) (container : List Tag) : List String :=
  strictLoop itemsOf polyHref (findAll container ["a", "li", "p", "div", "span"] 80) [] []

/-- Scan loop of `_extract_from_poly_block_relaxed` (lines 203-213): like the
strict loop but collecting from every element's text, not only partner
anchors. -/
def relaxedLoop (itemsOf : String → List String) :
    List Tag → List String → List String → List String
  | [], _, colors => colors.reverse
  | t :: ts, seen, colors =>
    if t.name = "h1" ∨ t.name = "h2" ∨ t.name = "h3" ∨ t.name = "hr" then colors.reverse
    else
      let r := addColors (itemsOf t.text) seen colors
      relaxedLoop itemsOf ts r.1 r.2

/-- Relaxed block tier on a located container, given its descendant
elements: the loop runs over `find_all(["li", "p", "div", "span"], limit=120)`. -/
def extract_from_poly_block_relaxed (itemsOf : String → List String)
    (container : List Tag) : List String :=
  relaxedLoop itemsOf (findAll container ["li", "p", "div", "span"] 120) [] []

/-- Modelled from the spec: the strict tier as the specification claims it,
scanning a bounded number of descendant elements (not pre-filtered by tag
name) and stopping early at the first heading/divider. -/
def extract_strictClaimed (itemsOf : String → List String)
    (polyHref : String → Bool) (container : List Tag) : List String :=
  strictLoop itemsOf polyHref (container.take 80) [] []

/-- Modelled from the spec: the relaxed tier as the specification claims it,
scanning a bounded number of descendant elements and stopping early at the
first heading/divider. -/
def extract_relaxedClaimed (itemsOf : String → List String)
    (container : List Tag) : List String :=
  relaxedLoop itemsOf (container.take 120) [] []

/-! ## Aggregator: ColorIndex and reports (lines 298-340) -/

/-- Python `color_to_models.setdefault(c, []).append(title)` on an
association list in insertion order (Python dicts preserve insertion order):
append to the first entry with key `c`, or add a new `(c, [title])` entry at
the end. -/
def indexInsert : List (String × List String) → String → String → List (String × List String)
  | [], c, title => [(c, [title])]
  | (k, ms) :: rest, c, title =>
    if k = c then (k, ms ++ [title]) :: rest
    else (k, ms) :: indexInsert rest c title

/-- ColorIndex construction of lines 325-326, from the per-model results
`(title, colors)` in visiting order. -/
def buildIndex (rows : List (String × List String)) : List (String × List String) :=
  rows.foldl (fun idx r => r.2.foldl (fun idx c => indexInsert idx c r.1) idx) []

/-- Python dict lookup on the association list (first matching key), with
`[]` for an absent key — `setdefault(c, []).append` never leaves an empty
list behind, so `[]` unambiguously means "absent". -/
def lookupIndex : List (String × List String) → String → List String
  | [], _ => []
  | (k, ms) :: rest, c => if k = c then ms else lookupIndex rest c

/-- Lower-casing on `String`, modelling Python `str.lower` on ASCII. -/
def lowerStr (s : String) : String :=
  String.mk (lowerList s.toList)

/-- Comparison realized by the sort key of line 339,
`key=lambda x: (-len(x[1]), x[0].lower())`: descending count of using
models, then ascending case-insensitive color name. -/
def reportLE (a b : String × List String) : Prop :=
  b.2.length < a.2.length ∨ (a.2.length = b.2.length ∧ lowerStr a.1 ≤ lowerStr b.1)

instance : DecidableRel reportLE := fun a b => by
  unfold reportLE
  infer_instance

instance : IsTotal (String × List String) reportLE :=
  ⟨fun a b => by
    unfold reportLE
    rcases Nat.lt_trichotomy b.2.length a.2.length with h | h | h
    · exact Or.inl (Or.inl h)
    · rcases le_total (lowerStr a.1) (lowerStr b.1) with h' | h'
      · exact Or.inl (Or.inr ⟨h.symm, h'⟩)
      · exact Or.inr (Or.inr ⟨h, h'⟩)
    · exact Or.inr (Or.inl h)⟩

instance : IsTrans (String × List String) reportLE :=
  ⟨fun a b c hab hbc => by
    unfold reportLE at hab hbc ⊢
    rcases hab with h1 | ⟨h1, h1'⟩ <;> rcases hbc with h2 | ⟨h2, h2'⟩
    · exact Or.inl (by omega)
    · exact Or.inl (by omega)
    · exact Or.inl (by omega)
    · exact Or.inr ⟨by omega, le_trans h1' h2'⟩⟩

/-- Rows of the per-color report in output order:
`sorted(color_to_models.items(), key=lambda x: (-len(x[1]), x[0].lower()))`
(Python's sort is stable; so is insertion sort). -/
def colorReportRows (idx : List (String × List String)) : List (String × List String) :=
  List.insertionSort reportLE idx

/-- Whether the csv module must quote a field (minimal quoting: delimiter,
quote char, or line-terminator characters present). -/
def csvNeedsQuote (s : String) : Bool :=
  s.toList.any fun c => c == ',' || c == '"' || c == '\n' || c == '\r'

/-- Doubling of quote characters inside a quoted csv field. -/
def csvEscapeQuotes (s : String) : String :=
  String.mk (s.toList.foldr (fun c acc => if c = '"' then '"' :: '"' :: acc else c :: acc) [])

/-- One csv field under the csv module's minimal quoting. -/
def csvField (s : String) : String :=
  if csvNeedsQuote s then "\"" ++ csvEscapeQuotes s ++ "\"" else s

/-- Content of `models_colors.csv` as written by `csv.DictWriter` (lines
333-335): header then one row per model record. -/
def renderModelsCsv (rows : List (String × String × String)) : String :=
  "model_name,model_url,colors\r\n" ++
    String.join (rows.map fun r =>
      csvField r.1 ++ "," ++ csvField r.2.1 ++ "," ++ csvField r.2.2 ++ "\r\n")

/-- Content of `color_counts.csv` as written by `csv.writer` (lines
337-340): header then one row per distinct color in report order. -/
def renderColorCounts (idx : List (String × List String)) : String :=
  "color,count,models\r\n" ++
    String.join ((colorReportRows idx).map fun e =>
      csvField e.1 ++ "," ++ toString e.2.length ++ "," ++
        csvField (String.intercalate "; " e.2) ++ "\r\n")

/-- Driver `main` from the point where discovery has produced `urls` (lines
298-340): `extract u` abstracts `extract_polymaker_colors(page, u)`, with
`none` for the per-item exception path (the URL is skipped).  The result is
the pair of file contents `(models_colors.csv, color_counts.csv)`.  With an
empty URL set, the header-only files of lines 302-303 are written (plain
newline) and the run returns normally; otherwise rows and the ColorIndex are
accumulated and rendered by the csv module. -/
def mainOutputs (urls : List String) (extract : String → Option (String × List String)) :
    String × String :=
  if urls.isEmpty then
    ("model_name,model_url,colors\n", "color,count,models\n")
  else
    let results := urls.filterMap fun u => (extract u).map fun tc => (tc.1, u, tc.2)
    let rows := results.map fun r => (r.1, r.2.1, String.intercalate "; " r.2.2)
    let idx := buildIndex (results.map fun r => (r.1, r.2.2))
    (renderModelsCsv rows, renderColorCounts idx)

/-! ## Listing Discoverer, scroll loop (`discover_model_urls_scroll`, lines 104-148) -/

/-- Scroll loop of `discover_model_urls_scroll` (lines 119-143): at each of
at most 40 iterations, collect links from the current markup (`linksAt i`),
scroll, and read the page height (`heightAt i`); an unchanged height
increments the stagnation counter, a changed height resets it to 0, and the
loop breaks as soon as the counter reaches 4.  Returns the number of
iterations executed and the accumulated URL set. -/
def scrollAux (heightAt : Nat → Nat) (linksAt : Nat → Finset String) :
    Nat → Nat → Nat → Nat → Finset String → Nat × Finset String
  | 0, i, _, _, acc => (i, acc)
  | fuel + 1, i, lastHeight, stagnant, acc =>
    if 4 ≤ (if heightAt i = lastHeight then stagnant + 1 else 0) then (i + 1, acc ∪ linksAt i)
    else scrollAux heightAt linksAt fuel (i + 1) (heightAt i)
      (if heightAt i = lastHeight then stagnant + 1 else 0) (acc ∪ linksAt i)

/-- Scroll discovery with the source's initial state: budget 40 iterations,
`last_height = 0`, `stagnant = 0`, empty accumulator. -/
def discover_model_urls_scroll (heightAt : Nat → Nat) (linksAt : Nat → Finset String) :
    Nat × Finset String :=
  scrollAux heightAt linksAt 40 0 0 0 ∅

/-! ## Color Extractor title fallback (lines 235-237) -/

/-- Python `model_url.rsplit("/", 1)[-1]`: the substring after the final
slash (the whole string when no slash occurs). -/
def afterLastSlash (s : String) : String :=
  String.mk ((s.toList.reverse.takeWhile fun c => !(c == '/')).reverse)

/-- Leftmost occurrence index of `pat` in a character list, or `none`. -/
def findSubstr (pat : List Char) : List Char → Option Nat
  | [] => if pat.isEmpty then some 0 else none
  | c :: t =>
    if pat.isPrefixOf (c :: t) then some 0
    else (findSubstr pat t).map (· + 1)

/-- Python `re.sub(r"\s*\(No Support.*$", "", t)`: cut the string at the
leftmost occurrence of the literal `(No Support`, swallowing the whitespace
run immediately before it (that run is the leftmost place the pattern's
leading `\s*` can start). -/
def stripNoSupport (s : String) : String :=
  match findSubstr "(No Support".toList s.toList with
  | some j => String.mk (trimTrailing (s.toList.take j))
  | none => s

/-- Title computation of `extract_polymaker_colors` (lines 235-237), with
the parsed markup abstracted as the list of `(tag name, stripped text)`
pairs in document order: take the first `h1`/`title` element's text, else
fall back to the model URL's last path segment; then strip the
support-related parenthetical suffix and surrounding whitespace. -/
def extractTitle (elems : List (String × String)) (model_url : String) : String :=
  let t0 :=
    match elems.find? (fun e => e.1 == "h1" || e.1 == "title") with
    | some e => e.2
    | none => afterLastSlash model_url
  String.mk (pyStrip (stripNoSupport t0).toList)

/-! ## Generic lemmas about trimming -/

theorem dropWhile_head?_false {p : Char → Bool} {l : List Char} {c : Char}
    (h : (l.dropWhile p).head? = some c) : p c = false := by
  induction l with
  | nil => simp at h
  | cons a t ih =>
    rw [List.dropWhile_cons] at h
    by_cases hp : p a = true
    · exact ih (by simpa [hp] using h)
    · simp only [hp, if_neg] at h
      simp only [Bool.not_eq_true] at hp
      obtain rfl : a = c := by simpa using h
      exact hp

theorem dropWhile_isSuffix (p : Char → Bool) (l : List Char) : l.dropWhile p <:+ l := by
  induction l with
  | nil => simp
  | cons a t ih =>
    rw [List.dropWhile_cons]
    by_cases hp : p a = true
    · simp only [hp, if_pos]
      exact ih.trans (List.suffix_cons a t)
    · simp [hp]

theorem trimLeftP_eq_self {p : Char → Bool} {l : List Char}
    (h : ∀ c, l.head? = some c → p c = false) : trimLeftP p l = l := by
  cases l with
  | nil => rfl
  | cons a t =>
    have := h a rfl
    simp [trimLeftP, List.dropWhile_cons, this]

theorem trimRightP_eq_self {p : Char → Bool} {l : List Char}
    (h : ∀ c, l.getLast? = some c → p c = false) : trimRightP p l = l := by
  have hh : ∀ c, l.reverse.head? = some c → p c = false := by
    intro c hc
    exact h c (by simpa [List.head?_reverse] using hc)
  have : l.reverse.dropWhile p = l.reverse := trimLeftP_eq_self hh
  simp [trimRightP, this]

theorem trimRightP_isPrefix (p : Char → Bool) (l : List Char) : trimRightP p l <+: l := by
  have h' : (trimRightP p l).reverse <:+ l.reverse := by
    simpa [trimRightP] using dropWhile_isSuffix p l.reverse
  exact List.reverse_suffix.1 h'

theorem trimLeftP_isSuffix (p : Char → Bool) (l : List Char) : trimLeftP p l <:+ l :=
  dropWhile_isSuffix p l

theorem trimRightP_getLast?_false {p : Char → Bool} {l : List Char} {c : Char}
    (h : (trimRightP p l).getLast? = some c) : p c = false := by
  have h' : (l.reverse.dropWhile p).head? = some c := by
    simpa [trimRightP, List.getLast?_reverse] using h
  exact dropWhile_head?_false h'

theorem trimLeftP_head?_false {p : Char → Bool} {l : List Char} {c : Char}
    (h : (trimLeftP p l).head? = some c) : p c = false :=
  dropWhile_head?_false h

theorem prefix_head?_eq {l₁ l₂ : List Char} {c : Char}
    (hp : l₁ <+: l₂) (h : l₁.head? = some c) : l₂.head? = some c := by
  obtain ⟨u, rfl⟩ := hp
  cases l₁ with
  | nil => simp at h
  | cons a t => simpa using h

theorem suffix_getLast?_eq {l₁ l₂ : List Char} {c : Char}
    (hs : l₁ <:+ l₂) (h : l₁.getLast? = some c) : l₂.getLast? = some c := by
  have hrev : l₁.reverse <+: l₂.reverse := List.reverse_prefix.2 hs
  have h2 : l₂.reverse.head? = some c :=
    prefix_head?_eq hrev (by simpa [List.head?_reverse] using h)
  simpa [List.head?_reverse] using h2

theorem stripPunct_head?_false {l : List Char} {c : Char}
    (h : (stripPunct l).head? = some c) : stripPunctChar c = false := by
  have hp : stripPunct l <+: trimLeftP stripPunctChar l :=
    trimRightP_isPrefix stripPunctChar _
  exact trimLeftP_head?_false (prefix_head?_eq hp h)

theorem stripPunct_getLast?_false {l : List Char} {c : Char}
    (h : (stripPunct l).getLast? = some c) : stripPunctChar c = false :=
  trimRightP_getLast?_false h

theorem stripPunct_idem (l : List Char) : stripPunct (stripPunct l) = stripPunct l := by
  have h1 : trimLeftP stripPunctChar (stripPunct l) = stripPunct l :=
    trimLeftP_eq_self (fun c hc => stripPunct_head?_false hc)
  have h2 : trimRightP stripPunctChar (stripPunct l) = stripPunct l :=
    trimRightP_eq_self (fun c hc => stripPunct_getLast?_false hc)
  calc stripPunct (stripPunct l)
      = trimRightP stripPunctChar (trimLeftP stripPunctChar (stripPunct l)) := rfl
    _ = trimRightP stripPunctChar (stripPunct l) := by rw [h1]
    _ = stripPunct l := h2

theorem stripPunct_isInfix (l : List Char) : stripPunct l <:+: l :=
  ((trimRightP_isPrefix _ _).isInfix).trans (trimLeftP_isSuffix _ l).isInfix

/-! ## Whitespace canonicality

A string that has gone through `collapseWS` has all its whitespace normalized
to single spaces, and none of the later pipeline steps de-normalizes it; this
is what makes a second `str.strip` / whitespace-collapse pass a no-op. -/

/-- Every whitespace character of `l` is a plain space. -/
def wsOnly (l : List Char) : Prop :=
  ∀ c ∈ l, pySpace c = true → c = ' '

/-- No two adjacent whitespace characters. -/
def noWS2 (l : List Char) : Prop :=
  l.Chain' fun a b => ¬(pySpace a = true ∧ pySpace b = true)

theorem mem_of_head? {l : List Char} {c : Char} (h : l.head? = some c) : c ∈ l := by
  cases l with
  | nil => simp at h
  | cons a t =>
    have ha : a = c := by simpa using h
    subst ha
    exact List.mem_cons_self a t

theorem mem_of_getLast? {l : List Char} {c : Char} (h : l.getLast? = some c) : c ∈ l := by
  have : l.reverse.head? = some c := by simpa [List.head?_reverse] using h
  simpa using mem_of_head? this

theorem wordChar_not_space {c : Char} (h : wordChar c = true) : pySpace c = false := by
  by_contra hs
  have hs' : pySpace c = true := by simpa using hs
  simp only [pySpace, Bool.or_eq_true, decide_eq_true_eq] at hs'
  rcases hs' with ((((h1 | h1) | h1) | h1) | h1) | h1 <;> subst h1 <;>
    exact absurd h (by decide)

theorem flushGrey_allWord {run : List Char} (h : ∀ c ∈ run, wordChar c = true) :
    ∀ c ∈ flushGrey run, wordChar c = true := by
  unfold flushGrey
  split
  · intro c hc
    have : c = 'G' ∨ c = 'r' ∨ c = 'a' ∨ c = 'y' := by simpa using hc
    rcases this with rfl | rfl | rfl | rfl <;> decide
  · exact h

theorem flushGrey_ne_nil {run : List Char} (h : run ≠ []) : flushGrey run ≠ [] := by
  unfold flushGrey
  split
  · simp
  · exact h

theorem mem_flushGrey {run : List Char} {c : Char} (h : c ∈ flushGrey run) :
    c ∈ run ∨ c ∈ ['G', 'r', 'a', 'y'] := by
  unfold flushGrey at h
  split at h
  · exact Or.inr h
  · exact Or.inl h

theorem mem_greyGo : ∀ (cs run : List Char) {c : Char}, c ∈ greyGo run cs →
    c ∈ run ∨ c ∈ cs ∨ c ∈ ['G', 'r', 'a', 'y']
  | [], run, c, h => by
    rw [greyGo] at h
    rcases mem_flushGrey h with h | h
    · exact Or.inl h
    · exact Or.inr (Or.inr h)
  | a :: cs, run, c, h => by
    rw [greyGo] at h
    by_cases hw : wordChar a = true
    · rw [if_pos hw] at h
      rcases mem_greyGo cs (run ++ [a]) h with h | h | h
      · rcases List.mem_append.1 h with h | h
        · exact Or.inl h
        · simp only [List.mem_singleton] at h
          exact Or.inr (Or.inl (h ▸ List.mem_cons_self a cs))
      · exact Or.inr (Or.inl (List.mem_cons_of_mem _ h))
      · exact Or.inr (Or.inr h)
    · rw [if_neg hw] at h
      rcases List.mem_append.1 h with h | h
      · rcases mem_flushGrey h with h | h
        · exact Or.inl h
        · exact Or.inr (Or.inr h)
      · rcases List.mem_cons.1 h with rfl | h
        · exact Or.inr (Or.inl (List.mem_cons_self c cs))
        · rcases mem_greyGo cs [] h with h | h | h
          · simp at h
          · exact Or.inr (Or.inl (List.mem_cons_of_mem _ h))
          · exact Or.inr (Or.inr h)

theorem noWS2_of_allWord {l : List Char} (h : ∀ c ∈ l, wordChar c = true) : noWS2 l := by
  induction l with
  | nil => exact List.chain'_nil
  | cons a t ih =>
    rw [noWS2, List.chain'_cons']
    refine ⟨fun b _ hab => ?_, ih fun c hc => h c (List.mem_cons_of_mem _ hc)⟩
    have := wordChar_not_space (h a (List.mem_cons_self a t))
    rw [hab.1] at this
    cases this

theorem greyGo_head_word : ∀ (cs run : List Char), run ≠ [] →
    (∀ c ∈ run, wordChar c = true) →
    ∃ c, (greyGo run cs).head? = some c ∧ wordChar c = true
  | [], run, hne, hall => by
    rw [greyGo]
    obtain ⟨b, t, hbt⟩ := List.exists_cons_of_ne_nil (flushGrey_ne_nil hne)
    refine ⟨b, by rw [hbt]; rfl, ?_⟩
    exact flushGrey_allWord hall b (hbt ▸ List.mem_cons_self b t)
  | a :: cs, run, hne, hall => by
    rw [greyGo]
    by_cases hw : wordChar a = true
    · rw [if_pos hw]
      exact greyGo_head_word cs (run ++ [a]) (by simp) fun c hc => by
        rcases List.mem_append.1 hc with h | h
        · exact hall c h
        · simp only [List.mem_singleton] at h; exact h ▸ hw
    · rw [if_neg hw]
      obtain ⟨b, t, hbt⟩ := List.exists_cons_of_ne_nil (flushGrey_ne_nil hne)
      refine ⟨b, by rw [hbt]; rfl, ?_⟩
      exact flushGrey_allWord hall b (hbt ▸ List.mem_cons_self b t)

theorem greyGo_noWS2 : ∀ (cs run : List Char), (∀ c ∈ run, wordChar c = true) →
    noWS2 (run ++ cs) → noWS2 (greyGo run cs)
  | [], run, hall, _ => by
    rw [greyGo]
    exact noWS2_of_allWord (flushGrey_allWord hall)
  | a :: cs, run, hall, hch => by
    rw [greyGo]
    by_cases hw : wordChar a = true
    · rw [if_pos hw]
      refine greyGo_noWS2 cs (run ++ [a]) (fun c hc => ?_) (by simpa using hch)
      rcases List.mem_append.1 hc with h | h
      · exact hall c h
      · simp only [List.mem_singleton] at h; exact h ▸ hw
    · rw [if_neg hw]
      have hacs : List.Chain' (fun a b => ¬(pySpace a = true ∧ pySpace b = true)) (a :: cs) :=
        (hch : List.Chain' _ _).suffix (List.suffix_append run (a :: cs))
      rw [noWS2, List.chain'_append]
      refine ⟨noWS2_of_allWord (flushGrey_allWord hall), ?_, ?_⟩
      · rw [List.chain'_cons']
        constructor
        · intro b hb hab
          cases cs with
          | nil =>
            rw [greyGo] at hb
            simp [flushGrey, lowerList] at hb
          | cons d ds =>
            by_cases hd : wordChar d = true
            · rw [greyGo, if_pos hd] at hb
              obtain ⟨c', hc', hcw⟩ :=
                greyGo_head_word ds ([] ++ [d]) (by simp) (by
                  intro c hc
                  simp only [List.nil_append, List.mem_singleton] at hc
                  exact hc ▸ hd)
              have hb' : (greyGo ([] ++ [d]) ds).head? = some b := hb
              rw [hc'] at hb'
              have hcb : c' = b := by simpa using hb'
              rw [← hcb, wordChar_not_space hcw] at hab
              exact absurd hab.2 (by simp)
            · rw [greyGo, if_neg hd] at hb
              have hbd : d = b := by
                simpa [flushGrey, lowerList] using hb
              subst hbd
              exact (List.chain'_cons.1 hacs).1 hab
        · refine greyGo_noWS2 cs [] (by simp) ?_
          exact hacs.tail
      · intro x hx y hy hxy
        have hxw : wordChar x = true :=
          flushGrey_allWord hall x (mem_of_getLast? (by simpa using hx))
        rw [(wordChar_not_space hxw : pySpace x = false)] at hxy
        exact absurd hxy.1 (by simp)

theorem greySub_noWS2 {l : List Char} (h : noWS2 l) : noWS2 (greySub l) :=
  greyGo_noWS2 l [] (by simp) (by rw [List.nil_append]; exact h)

theorem greySub_wsOnly {l : List Char} (h : wsOnly l) : wsOnly (greySub l) := by
  intro c hc hs
  rcases mem_greyGo l [] hc with h' | h' | h'
  · simp at h'
  · exact h c h' hs
  · have : c = 'G' ∨ c = 'r' ∨ c = 'a' ∨ c = 'y' := by simpa using h'
    rcases this with rfl | rfl | rfl | rfl <;> exact absurd hs (by decide)

theorem collapseGo_wsOnly : ∀ (l : List Char) (flag : Bool), wsOnly (collapseGo flag l)
  | [], flag => by intro c hc; rw [collapseGo] at hc; simp at hc
  | a :: t, flag => by
    intro x hx hs
    rw [collapseGo] at hx
    by_cases ha : pySpace a = true
    · rw [if_pos ha] at hx
      cases flag with
      | true => exact collapseGo_wsOnly t true x hx hs
      | false =>
        rcases List.mem_cons.1 hx with rfl | hx
        · rfl
        · exact collapseGo_wsOnly t true x hx hs
    · rw [if_neg ha] at hx
      rcases List.mem_cons.1 hx with rfl | hx
      · exact absurd hs (by simpa using ha)
      · exact collapseGo_wsOnly t false x hx hs

theorem collapseGo_true_head : ∀ (l : List Char) {c : Char},
    (collapseGo true l).head? = some c → pySpace c = false
  | [], c, h => by rw [collapseGo] at h; simp at h
  | a :: t, c, h => by
    rw [collapseGo] at h
    by_cases ha : pySpace a = true
    · rw [if_pos ha] at h
      exact collapseGo_true_head t h
    · rw [if_neg ha] at h
      have : a = c := by simpa using h
      subst this
      simpa using ha

theorem collapseGo_noWS2 : ∀ (l : List Char) (flag : Bool), noWS2 (collapseGo flag l)
  | [], flag => by rw [collapseGo]; exact List.chain'_nil
  | a :: t, flag => by
    rw [collapseGo]
    by_cases ha : pySpace a = true
    · rw [if_pos ha]
      cases flag with
      | true => exact collapseGo_noWS2 t true
      | false =>
        show List.Chain' (fun a b => ¬(pySpace a = true ∧ pySpace b = true))
          (' ' :: collapseGo true t)
        rw [List.chain'_cons']
        refine ⟨fun b hb hab => ?_, collapseGo_noWS2 t true⟩
        have : (collapseGo true t).head? = some b := hb
        rw [collapseGo_true_head t this] at hab
        exact absurd hab.2 (by simp)
    · rw [if_neg ha]
      rw [noWS2, List.chain'_cons']
      refine ⟨fun b _ hab => ?_, collapseGo_noWS2 t false⟩
      exact absurd hab.1 (by simpa using ha)

theorem collapseGo_eq_self : ∀ (l : List Char) (flag : Bool), wsOnly l → noWS2 l →
    (flag = true → ∀ c, l.head? = some c → pySpace c = false) → collapseGo flag l = l
  | [], flag, _, _, _ => by rw [collapseGo]
  | a :: t, flag, hws, hch, hflag => by
    rw [collapseGo]
    by_cases ha : pySpace a = true
    · rw [if_pos ha]
      have ha' : a = ' ' := hws a (List.mem_cons_self a t) ha
      have htail : collapseGo true t = t := by
        refine collapseGo_eq_self t true (fun c hc => hws c (List.mem_cons_of_mem _ hc))
          hch.tail (fun _ c hc => ?_)
        have hrel := (List.chain'_cons'.1 hch).1 c hc
        by_contra hcs
        exact hrel ⟨ha, by simpa using hcs⟩
      cases flag with
      | true => exact absurd (hflag rfl a rfl) (by simpa using ha)
      | false =>
        rw [htail, ha']
        rfl
    · rw [if_neg ha]
      rw [collapseGo_eq_self t false (fun c hc => hws c (List.mem_cons_of_mem _ hc))
        hch.tail (by simp)]

theorem collapseWS_wsOnly (l : List Char) : wsOnly (collapseWS l) :=
  collapseGo_wsOnly l false

theorem collapseWS_noWS2 (l : List Char) : noWS2 (collapseWS l) :=
  collapseGo_noWS2 l false

theorem collapseWS_eq_self {l : List Char} (h1 : wsOnly l) (h2 : noWS2 l) :
    collapseWS l = l :=
  collapseGo_eq_self l false h1 h2 (by simp)

theorem mem_matteSub {l : List Char} {c : Char} (h : c ∈ matteSub l) :
    c ∈ l ∨ c ∈ ['M', 'a', 't', 't', 'e'] := by
  unfold matteSub at h
  split at h
  · rcases List.mem_append.1 h with h | h
    · exact Or.inr h
    · exact Or.inl (((List.drop_suffix 5 l).sublist).subset h)
  · exact Or.inl h

theorem matteSub_wsOnly {l : List Char} (h : wsOnly l) : wsOnly (matteSub l) := by
  intro c hc hs
  rcases mem_matteSub hc with h' | h'
  · exact h c h' hs
  · have : c = 'M' ∨ c = 'a' ∨ c = 't' ∨ c = 't' ∨ c = 'e' := by simpa using h'
    rcases this with rfl | rfl | rfl | rfl | rfl <;> exact absurd hs (by decide)

theorem matteSub_noWS2 {l : List Char} (h : noWS2 l) : noWS2 (matteSub l) := by
  unfold matteSub
  split
  · rw [noWS2, List.chain'_append]
    refine ⟨noWS2_of_allWord (by decide), (h : List.Chain' _ _).suffix (List.drop_suffix 5 l),
      fun x hx y _ hxy => ?_⟩
    have hx' : 'e' = x := by simpa using hx
    subst hx'
    exact absurd hxy.1 (by decide)
  · exact h

theorem plaSub_isPrefix (l : List Char) : plaSub l <+: l := by
  unfold plaSub
  split
  · have ht := List.take_prefix ((trimTrailing l).length - 3) (trimTrailing l)
    exact (trimRightP_isPrefix _ _).trans (ht.trans (trimRightP_isPrefix _ _))
  · exact List.prefix_refl l

theorem plaSub_wsOnly {l : List Char} (h : wsOnly l) : wsOnly (plaSub l) := fun c hc =>
  h c (((plaSub_isPrefix l).sublist).subset hc)

theorem plaSub_noWS2 {l : List Char} (h : noWS2 l) : noWS2 (plaSub l) :=
  List.Chain'.prefix h (plaSub_isPrefix l)

theorem stripPunct_wsOnly {l : List Char} (h : wsOnly l) : wsOnly (stripPunct l) := fun c hc =>
  h c (((stripPunct_isInfix l).sublist).subset hc)

theorem stripPunct_noWS2 {l : List Char} (h : noWS2 l) : noWS2 (stripPunct l) :=
  List.Chain'.infix h (stripPunct_isInfix l)

theorem pyStrip_eq_self {l : List Char}
    (h1 : ∀ c, l.head? = some c → pySpace c = false)
    (h2 : ∀ c, l.getLast? = some c → pySpace c = false) : pyStrip l = l := by
  unfold pyStrip
  rw [trimLeftP_eq_self h1, trimRightP_eq_self h2]

theorem normalize_pre_wsOnly (s : List Char) : wsOnly (normalize_pre s) :=
  stripPunct_wsOnly (plaSub_wsOnly (matteSub_wsOnly (greySub_wsOnly (collapseWS_wsOnly _))))

theorem normalize_pre_noWS2 (s : List Char) : noWS2 (normalize_pre s) := by
  unfold normalize_pre
  have h1 : noWS2 (collapseWS (pyStrip s)) := collapseWS_noWS2 _
  have h2 : noWS2 (greySub (collapseWS (pyStrip s))) := greySub_noWS2 h1
  have h3 : noWS2 (matteSub (greySub (collapseWS (pyStrip s)))) := matteSub_noWS2 h2
  have h4 : noWS2 (plaSub (matteSub (greySub (collapseWS (pyStrip s))))) := plaSub_noWS2 h3
  exact stripPunct_noWS2 h4

theorem normalize_pre_head_not_space {s : List Char} {c : Char}
    (hc : (normalize_pre s).head? = some c) : pySpace c = false := by
  have hq : stripPunctChar c = false := stripPunct_head?_false hc
  have hmem : c ∈ normalize_pre s := mem_of_head? hc
  by_contra hcs
  have hc' : c = ' ' := normalize_pre_wsOnly s c hmem (by simpa using hcs)
  rw [hc'] at hq
  exact absurd hq (by decide)

theorem normalize_pre_getLast_not_space {s : List Char} {c : Char}
    (hc : (normalize_pre s).getLast? = some c) : pySpace c = false := by
  have hq : stripPunctChar c = false := stripPunct_getLast?_false hc
  have hmem : c ∈ normalize_pre s := mem_of_getLast? hc
  by_contra hcs
  have hc' : c = ' ' := normalize_pre_wsOnly s c hmem (by simpa using hcs)
  rw [hc'] at hq
  exact absurd hq (by decide)

theorem stripPunct_normalize_pre (s : List Char) :
    stripPunct (normalize_pre s) = normalize_pre s := by
  unfold normalize_pre
  exact stripPunct_idem _

/-! ## Claim C7: idempotence of color normalization -/

/-- C7 (counterexample): `_normalize_color` is not idempotent.  The
substitution `re.sub(r"(?i)\s*PLA\s*$", "", x)` has no word boundary, so the
normalized output can itself end in a case variant of `PLA`:
`"Silk Pla Pla"` normalizes to `"Silk Pla"`, and normalizing that again
yields `""` (the trailing `Pla` is stripped and only one word remains). -/
theorem c7_normalize_color_not_idempotent :
    normalize_color (normalize_color "Silk Pla Pla".toList) ≠
      normalize_color "Silk Pla Pla".toList := by
  decide

set_option maxHeartbeats 2000000 in
set_option linter.constructorNameAsVariable false in
/-- C7 (amended): `_normalize_color` is idempotent on every input whose
normalized output is left unchanged by the three substitution passes —
the `Grey`→`Gray` replacement, the leading-`Matte` canonicalization, and
the trailing-`PLA` removal.  (The remaining cleaning steps — strip,
whitespace collapse, punctuation strip — never change a normalized output,
which this theorem proves.) -/
theorem c7_normalize_color_idempotent_of_subs_fixed (s : List Char)
    (hg : greySub (normalize_color s) = normalize_color s)
    (hm : matteSub (normalize_color s) = normalize_color s)
    (hp : plaSub (normalize_color s) = normalize_color s) :
    normalize_color (normalize_color s) = normalize_color s := by
  by_cases h0 : normalize_color s = []
  · rw [h0]
    decide
  · have hcond : ¬(lowerList (normalize_pre s) = ['m', 'a', 't', 't', 'e'] ∨
        wordCount (normalize_pre s) < 2) := by
      intro hc
      apply h0
      unfold normalize_color
      rw [if_pos hc]
    have hy : normalize_color s = normalize_pre s := by
      unfold normalize_color
      rw [if_neg hcond]
    have hws : wsOnly (normalize_color s) := by
      rw [hy]
      exact normalize_pre_wsOnly s
    have hnws : noWS2 (normalize_color s) := by
      rw [hy]
      exact normalize_pre_noWS2 s
    have hstrip : pyStrip (normalize_color s) = normalize_color s := by
      apply pyStrip_eq_self
      · intro c hc
        rw [hy] at hc
        exact normalize_pre_head_not_space hc
      · intro c hc
        rw [hy] at hc
        exact normalize_pre_getLast_not_space hc
    have hcollapse : collapseWS (normalize_color s) = normalize_color s :=
      collapseWS_eq_self hws hnws
    have hsp : stripPunct (normalize_color s) = normalize_color s := by
      rw [hy]
      exact stripPunct_normalize_pre s
    have hpre : normalize_pre (normalize_color s) = normalize_color s := by
      unfold normalize_pre
      rw [hstrip, hcollapse, hg, hm, hp, hsp]
    have hcond' : ¬(lowerList (normalize_pre (normalize_color s)) = ['m', 'a', 't', 't', 'e'] ∨
        wordCount (normalize_pre (normalize_color s)) < 2) := by
      rw [hpre, hy]
      exact hcond
    show (if lowerList (normalize_pre (normalize_color s)) = ['m', 'a', 't', 't', 'e'] ∨
        wordCount (normalize_pre (normalize_color s)) < 2 then ([] : List Char)
      else normalize_pre (normalize_color s)) = normalize_color s
    rw [if_neg hcond', hpre]

/-- C7 (witness): a concrete run of the amended idempotence theorem on
`"Polymaker Matte Ash Grey PLA"`, whose normalized output
`"Polymaker Matte Ash Gray"` is a fixed point of all three substitution
passes. -/
theorem c7_normalize_color_idempotent_witness :
    greySub (normalize_color "Polymaker Matte Ash Grey PLA".toList) =
        normalize_color "Polymaker Matte Ash Grey PLA".toList ∧
      matteSub (normalize_color "Polymaker Matte Ash Grey PLA".toList) =
        normalize_color "Polymaker Matte Ash Grey PLA".toList ∧
      plaSub (normalize_color "Polymaker Matte Ash Grey PLA".toList) =
        normalize_color "Polymaker Matte Ash Grey PLA".toList ∧
      normalize_color (normalize_color "Polymaker Matte Ash Grey PLA".toList) =
        normalize_color "Polymaker Matte Ash Grey PLA".toList :=
  ⟨by decide, by decide, by decide,
    c7_normalize_color_idempotent_of_subs_fixed _ (by decide) (by decide) (by decide)⟩

/-! ## Claim C1: Page Navigator wait-strategy order -/

/-- C1 (counterexample): the claimed strategy order ("network idle first,
then DOM-ready, then no wait") is not the code's.  With a page whose
navigation succeeds only under a `networkidle` wait, the spec's order would
succeed on the first attempt, but `safe_goto` attempts
`domcontentloaded, load, None` — never `networkidle` — and raises after all
three fail. -/
theorem c1_wait_order_counterexample :
    safe_goto (fun st => st == some WaitUntil.networkidle) =
        ([some WaitUntil.domcontentloaded, some WaitUntil.load, none], false) ∧
      safe_gotoClaimed (fun st => st == some WaitUntil.networkidle) =
        ([some WaitUntil.networkidle], true) ∧
      states ≠ statesClaimed := by
  refine ⟨?_, ?_, ?_⟩ <;> decide

/-- C1 (amended): `safe_goto` attempts navigation with the descending
strategy list in the order DOM-ready signal (`domcontentloaded`) first, then
full-load signal (`load`), then no wait condition plus a fixed pause; it
stops at the first success and, after its fixed budget of 3 attempts all
fail, raises the last navigation timeout (result flag `false`). -/
theorem c1_safe_goto_strategy_order (goto : Option WaitUntil → Bool) :
    safe_goto goto =
      if goto (some WaitUntil.domcontentloaded) then
        ([some WaitUntil.domcontentloaded], true)
      else if goto (some WaitUntil.load) then
        ([some WaitUntil.domcontentloaded, some WaitUntil.load], true)
      else if goto none then
        ([some WaitUntil.domcontentloaded, some WaitUntil.load, none], true)
      else ([some WaitUntil.domcontentloaded, some WaitUntil.load, none], false) := by
  cases h1 : goto (some WaitUntil.domcontentloaded) <;>
    cases h2 : goto (some WaitUntil.load) <;>
      cases h3 : goto none <;>
        simp [safe_goto, gotoLoop, states, h1, h2, h3]

/-! ## Claim C3: block-tier scan and the heading/divider break -/

/-- C3 (code bug): the early-stop at headings/dividers is dead code.  Both
block tiers iterate `container.find_all([...], limit=…)` whose name filter
(`a/li/p/div/span`, resp. `li/p/div/span`) can never produce an
`h1`/`h2`/`h3`/`hr` tag, so the `break` guard never fires: an element
*after* the first heading inside the container still contributes colors
(first two conjuncts), while the specified scan stops at the heading and
yields nothing there (last two conjuncts). -/
theorem c3_heading_break_is_dead :
    extract_from_poly_block_strict
        (fun s => if s = "Polymaker Matte Ash Gray PLA" then ["Matte Ash Gray"] else [])
        (fun h => h == "https://polymaker.com/p")
        [⟨"h2", "", "Other products"⟩,
          ⟨"a", "https://polymaker.com/p", "Polymaker Matte Ash Gray PLA"⟩] =
        ["Matte Ash Gray"] ∧
      extract_from_poly_block_relaxed
        (fun s => if s = "Polymaker Matte Ash Gray PLA" then ["Matte Ash Gray"] else [])
        [⟨"h2", "", "Other products"⟩,
          ⟨"p", "", "Polymaker Matte Ash Gray PLA"⟩] =
        ["Matte Ash Gray"] ∧
      extract_strictClaimed
        (fun s => if s = "Polymaker Matte Ash Gray PLA" then ["Matte Ash Gray"] else [])
        (fun h => h == "https://polymaker.com/p")
        [⟨"h2", "", "Other products"⟩,
          ⟨"a", "https://polymaker.com/p", "Polymaker Matte Ash Gray PLA"⟩] = [] ∧
      extract_relaxedClaimed
        (fun s => if s = "Polymaker Matte Ash Gray PLA" then ["Matte Ash Gray"] else [])
        [⟨"h2", "", "Other products"⟩,
          ⟨"p", "", "Polymaker Matte Ash Gray PLA"⟩] = [] := by
  refine ⟨?_, ?_, ?_, ?_⟩ <;> decide

/-! ## Claim C6: empty discovery produces header-only reports -/

/-- C6: when discovery returns an empty URL set (after both the scroll and
the paged strategy), `main` does not fail: it writes `models_colors.csv` and
`color_counts.csv` containing exactly their header rows and returns
normally, for any behaviour of the per-URL extractor. -/
theorem c6_empty_discovery_header_only (extract : String → Option (String × List String)) :
    mainOutputs [] extract = ("model_name,model_url,colors\n", "color,count,models\n") :=
  rfl

/-! ## Claims C4 and C9: ColorIndex and per-color report -/

/-- Key list after a `setdefault`-insert: unchanged when the key is present,
extended at the end otherwise. -/
theorem indexInsert_keys (idx : List (String × List String)) (c title : String) :
    (indexInsert idx c title).map Prod.fst =
      if c ∈ idx.map Prod.fst then idx.map Prod.fst else idx.map Prod.fst ++ [c] := by
  induction idx with
  | nil => simp [indexInsert]
  | cons p rest ih =>
    obtain ⟨k, ms⟩ := p
    by_cases hk : k = c
    · subst hk
      simp [indexInsert]
    · simp only [indexInsert, if_neg hk, List.map_cons, ih, List.mem_cons]
      by_cases hc : c ∈ rest.map Prod.fst
      · simp [hc]
      · simp [hc, Ne.symm hk]

/-- A `setdefault`-insert preserves distinctness of the keys. -/
theorem indexInsert_keys_nodup {idx : List (String × List String)}
    (h : (idx.map Prod.fst).Nodup) (c title : String) :
    ((indexInsert idx c title).map Prod.fst).Nodup := by
  rw [indexInsert_keys]
  split
  · exact h
  · next hc => simp [List.nodup_append, h, hc]

/-- The ColorIndex always has pairwise-distinct keys: one entry per distinct
(exact, case-sensitive) color string. -/
theorem buildIndex_keys_nodup (rows : List (String × List String)) :
    ((buildIndex rows).map Prod.fst).Nodup := by
  suffices h : ∀ (rs : List (String × List String)) (idx : List (String × List String)),
      (idx.map Prod.fst).Nodup →
      (((rs.foldl (fun idx r => r.2.foldl (fun idx c => indexInsert idx c r.1) idx) idx).map
        Prod.fst).Nodup) by
    exact h rows [] (by simp)
  intro rs
  induction rs with
  | nil => intro idx h; simpa using h
  | cons r rest ih =>
    intro idx h
    simp only [List.foldl_cons]
    apply ih
    have hin : ∀ (cs : List String) (idx : List (String × List String)),
        (idx.map Prod.fst).Nodup →
        (((cs.foldl (fun i cc => indexInsert i cc r.1) idx).map Prod.fst).Nodup) := by
      intro cs
      induction cs with
      | nil => intro idx h; simpa using h
      | cons c ct ihc =>
        intro idx h
        simp only [List.foldl_cons]
        exact ihc _ (indexInsert_keys_nodup h c r.1)
    exact hin r.2 idx h

/-- C4: for every final ColorIndex (built from the per-model results), the
per-color report has one row per distinct color (the report rows are a
permutation of the index, whose keys are pairwise distinct), and the rows
are pairwise ordered by the sort key: strictly greater usage count first,
and among equal counts ascending case-insensitive color name. -/
theorem c4_color_report_order (rows : List (String × List String)) :
    List.Pairwise reportLE (colorReportRows (buildIndex rows)) ∧
      List.Perm (colorReportRows (buildIndex rows)) (buildIndex rows) ∧
      ((buildIndex rows).map Prod.fst).Nodup :=
  ⟨List.sorted_insertionSort reportLE (buildIndex rows),
    List.perm_insertionSort reportLE (buildIndex rows),
    buildIndex_keys_nodup rows⟩

/-- Lookup after a `setdefault`-insert: the inserted title is appended at
the inserted key, all other keys are untouched. -/
theorem lookup_indexInsert (idx : List (String × List String)) (c title c' : String) :
    lookupIndex (indexInsert idx c title) c' =
      if c' = c then lookupIndex idx c ++ [title] else lookupIndex idx c' := by
  induction idx with
  | nil =>
    simp only [indexInsert, lookupIndex]
    split_ifs <;> simp_all
  | cons p rest ih =>
    obtain ⟨k, ms⟩ := p
    simp only [indexInsert, lookupIndex]
    split_ifs <;> simp_all [lookupIndex]

/-- Lookup after inserting one model's color list (no duplicate colors
within the list): the title is appended exactly at the colors the model
used. -/
theorem lookup_foldl_colors (title : String) :
    ∀ (cs : List String) (idx : List (String × List String)) (c' : String), cs.Nodup →
      lookupIndex (cs.foldl (fun i c => indexInsert i c title) idx) c' =
        lookupIndex idx c' ++ (if c' ∈ cs then [title] else [])
  | [], idx, c', _ => by simp
  | c :: ct, idx, c', hnd => by
    simp only [List.foldl_cons]
    rw [lookup_foldl_colors title ct (indexInsert idx c title) c' hnd.of_cons]
    rw [lookup_indexInsert]
    by_cases h : c' = c
    · subst h
      have hnotin : c' ∉ ct := (List.nodup_cons.1 hnd).1
      simp [hnotin]
    · simp [h]

/-- Lookup in the index built by folding rows into `idx`. -/
theorem lookup_buildIndex_go :
    ∀ (rows : List (String × List String)) (idx : List (String × List String)) (c : String),
      (∀ r ∈ rows, r.2.Nodup) →
      lookupIndex
          (rows.foldl (fun idx r => r.2.foldl (fun i cc => indexInsert i cc r.1) idx) idx) c =
        lookupIndex idx c ++ (rows.filter (fun r => decide (c ∈ r.2))).map Prod.fst
  | [], idx, c, _ => by simp
  | r :: rest, idx, c, hnd => by
    simp only [List.foldl_cons]
    rw [lookup_buildIndex_go rest _ c (fun x hx => hnd x (List.mem_cons_of_mem _ hx))]
    rw [lookup_foldl_colors r.1 r.2 idx c (hnd r (List.mem_cons_self r rest))]
    by_cases h : c ∈ r.2
    · simp [h, List.filter_cons]
    · simp [h, List.filter_cons]

/-- C9: the ColorIndex is keyed by exact (case-sensitive) color strings: for
any color string `c`, the entry at `c` lists exactly the models whose color
list contains that exact casing, in visiting order.  Two models producing
the same color in different casings therefore land under two distinct keys
and count separately; case-insensitive deduplication happens only inside a
single model's color list (whence the `Nodup` hypothesis), never across
models. -/
theorem c9_color_index_exact_casing (rows : List (String × List String))
    (hnd : ∀ r ∈ rows, r.2.Nodup) (c : String) :
    lookupIndex (buildIndex rows) c = (rows.filter (fun r => decide (c ∈ r.2))).map Prod.fst := by
  unfold buildIndex
  rw [lookup_buildIndex_go rows [] c hnd]
  simp [lookupIndex]

/-- C9 (witness): two models using `"Matte Ash Gray"` and
`"MATTE ASH GRAY"` produce two distinct index entries, each listing only the
model with that exact casing. -/
theorem c9_color_index_exact_casing_witness :
    lookupIndex (buildIndex [("M1", ["Matte Ash Gray"]), ("M2", ["MATTE ASH GRAY"])])
        "Matte Ash Gray" = ["M1"] ∧
      lookupIndex (buildIndex [("M1", ["Matte Ash Gray"]), ("M2", ["MATTE ASH GRAY"])])
        "MATTE ASH GRAY" = ["M2"] :=
  ⟨(c9_color_index_exact_casing _ (by decide) _).trans (by decide),
    (c9_color_index_exact_casing _ (by decide) _).trans (by decide)⟩

/-! ## Claim C5: Link Collector on markup with strict matches -/

/-- C5: whenever at least one anchor's href matches the strict model-link
pattern (`/designer/<segment>/3d-model/<slug>-<digits>` at the end of the
href, case-insensitively), the Link Collector returns exactly the set of the
matching anchors' hrefs resolved to absolute URLs — deduplicated by the set,
and nothing else (in particular the loose `/3d-model/` fallback does not
contribute). -/
theorem c5_link_collector_strict (hrefs : List String)
    (h : ∃ a ∈ hrefs, modelLinkSearch a = true) (u : String) :
    u ∈ collect_links_from_html hrefs ↔
      ∃ a ∈ hrefs, modelLinkSearch a = true ∧ u = urljoin a := by
  obtain ⟨a0, ha0, hm0⟩ := h
  have hmem : urljoin a0 ∈ (hrefs.filter modelLinkSearch).map urljoin :=
    List.mem_map_of_mem urljoin (List.mem_filter.2 ⟨ha0, hm0⟩)
  have hne : ¬(((hrefs.filter modelLinkSearch).map urljoin).isEmpty = true) := by
    simp only [List.isEmpty_iff]
    exact List.ne_nil_of_mem hmem
  unfold collect_links_from_html
  rw [if_neg hne]
  simp only [List.mem_toFinset, List.mem_map, List.mem_filter]
  constructor
  · rintro ⟨a, ⟨hal, ham⟩, rfl⟩
    exact ⟨a, hal, ham, rfl⟩
  · rintro ⟨a, hal, ham, rfl⟩
    exact ⟨a, ⟨hal, ham⟩, rfl⟩

/-- C5 (witness): a designer-page anchor list with one matching href; its
absolute resolution is collected. -/
theorem c5_link_collector_witness :
    "https://thangs.com/designer/kit-kiln/3d-model/widget-123" ∈
      collect_links_from_html ["/designer/kit-kiln/3d-model/widget-123", "/about"] :=
  (c5_link_collector_strict ["/designer/kit-kiln/3d-model/widget-123", "/about"]
      ⟨"/designer/kit-kiln/3d-model/widget-123", by decide, by decide⟩ _).mpr
    ⟨"/designer/kit-kiln/3d-model/widget-123", by decide, by decide, by decide⟩

/-! ## Claim C10: title fallback without h1/title -/

/-- C10: on a detail page whose markup has neither an `h1` nor a `title`
element, the extractor's title is computed from the model URL: the substring
after the final `/` (second conjunct: that segment contains no slash), with
the support-related parenthetical then stripped and the result trimmed —
rather than failing. -/
theorem c10_title_fallback (elems : List (String × String)) (model_url : String)
    (h : ∀ e ∈ elems, e.1 ≠ "h1" ∧ e.1 ≠ "title") :
    extractTitle elems model_url =
        String.mk (pyStrip (stripNoSupport (afterLastSlash model_url)).toList) ∧
      (afterLastSlash model_url).toList.all (fun c => !(c == '/')) = true := by
  constructor
  · have hf : elems.find? (fun e => e.1 == "h1" || e.1 == "title") = none := by
      rw [List.find?_eq_none]
      intro e he
      simp [(h e he).1, (h e he).2]
    unfold extractTitle
    rw [hf]
  · show ((model_url.toList.reverse.takeWhile fun c => !(c == '/')).reverse).all
      (fun c => !(c == '/')) = true
    rw [List.all_eq_true]
    intro c hc
    have hc' : c ∈ model_url.toList.reverse.takeWhile fun c => !(c == '/') := by
      simpa using hc
    have h2 := List.mem_takeWhile_imp hc'
    simpa using h2

/-- C10 (witness): a markup with only a `div` element falls back to the URL
segment `widget-123`. -/
theorem c10_title_fallback_witness :
    extractTitle [("div", "hello")] "https://thangs.com/designer/kit/3d-model/widget-123" =
        String.mk (pyStrip (stripNoSupport
          (afterLastSlash "https://thangs.com/designer/kit/3d-model/widget-123")).toList) ∧
      (afterLastSlash "https://thangs.com/designer/kit/3d-model/widget-123").toList.all
        (fun c => !(c == '/')) = true :=
  c10_title_fallback [("div", "hello")] "https://thangs.com/designer/kit/3d-model/widget-123"
    (by decide)

/-! ## Claim C2: paged fallback stopping condition -/

/-- Characterization of the paged loop when some page `m` within the fuel
budget is the first to yield no links: the loop visits exactly the pages up
to and including `m` and accumulates the union of all their link sets. -/
theorem pagedAux_spec (fetch : Nat → Finset String) (m : Nat) (hm : fetch m = ∅) :
    ∀ (fuel n : Nat) (visited : List Nat) (acc : Finset String), n ≤ m → m - n < fuel →
      (∀ k, n ≤ k → k < m → fetch k ≠ ∅) →
      pagedAux fetch fuel n visited acc =
        (visited.reverse ++ List.range' n (m - n + 1),
          (List.range' n (m - n + 1)).foldl (fun s k => s ∪ fetch k) acc)
  | 0, n, visited, acc, hn, hfuel, _ => by omega
  | fuel + 1, n, visited, acc, hn, hfuel, hne => by
    by_cases heq : n = m
    · subst heq
      rw [pagedAux, if_pos hm]
      simp [Nat.sub_self, List.range'_one]
    · have hlt : n < m := lt_of_le_of_ne hn heq
      have hne0 : fetch n ≠ ∅ := hne n le_rfl hlt
      rw [pagedAux, if_neg hne0]
      rw [pagedAux_spec fetch m hm fuel (n + 1) (n :: visited) (acc ∪ fetch n) (by omega)
        (by omega) (fun k hk1 hk2 => hne k (by omega) hk2)]
      have h2 : m - (n + 1) + 1 = m - n := by omega
      rw [h2]
      have hr : List.range' n (m - n + 1) = n :: List.range' (n + 1) (m - n) :=
        List.range'_succ n (m - n) 1
      rw [hr]
      simp [List.reverse_cons, List.append_assoc]

/-- C2 (counterexample): the paged fallback does not stop on a page that
yields zero *new* links.  With every page returning the same single link,
page 2 already yields zero new links, yet the code visits all 20 pages
because each page's link set is nonempty; the loop described by the
specification stops after page 2. -/
theorem c2_paged_new_links_counterexample :
    (discover_model_urls_paged
        (fun _ => {"https://thangs.com/designer/d/3d-model/m-1"}) 20).1 = List.range' 1 20 ∧
      (discover_model_urls_pagedClaimed
        (fun _ => {"https://thangs.com/designer/d/3d-model/m-1"}) 20).1 = [1, 2] := by
  constructor <;> decide

/-- C2 (amended): in the paged fallback, page numbers are iterated from 1
upward (bounded by the 20-page budget), each page's links are unioned into
the accumulator, and iteration stops as soon as a page yields zero links at
all — an empty collection — rather than zero new links: if pages `1..m-1`
each yield at least one link and page `m ≤ 20` yields none, exactly pages
`1..m` are visited and their link sets unioned. -/
theorem c2_paged_stops_on_empty_page (fetch : Nat → Finset String) (m : Nat)
    (h1 : 1 ≤ m) (h2 : m ≤ 20)
    (hne : ∀ k, k < m → 1 ≤ k → fetch k ≠ ∅) (he : fetch m = ∅) :
    discover_model_urls_paged fetch 20 =
      (List.range' 1 m, (List.range' 1 m).foldl (fun s k => s ∪ fetch k) ∅) := by
  unfold discover_model_urls_paged
  rw [pagedAux_spec fetch m he 20 1 [] ∅ h1 (by omega) (fun k hk1 hk2 => hne k hk2 hk1)]
  have h3 : m - 1 + 1 = m := by omega
  rw [h3]
  simp

/-- C2 (witness): with pages 1, 2 yielding one link each and page 3 empty,
the paged fallback visits exactly pages 1, 2, 3. -/
theorem c2_paged_stops_on_empty_page_witness :
    discover_model_urls_paged
        (fun n => if n < 3 then ({toString n} : Finset String) else ∅) 20 =
      (List.range' 1 3,
        (List.range' 1 3).foldl
          (fun s k => s ∪ (if k < 3 then ({toString k} : Finset String) else ∅)) ∅) :=
  c2_paged_stops_on_empty_page _ 3 (by decide) (by decide) (by decide) (by decide)

/-! ## Claim C8: scroll-loop stagnation termination -/

/-- The executed iteration count of the scroll loop does not depend on the
link oracle or the accumulator. -/
theorem scrollAux_iters_indep (heightAt : Nat → Nat) :
    ∀ (fuel i lastH stagnant : Nat) (la la' : Nat → Finset String) (acc acc' : Finset String),
      (scrollAux heightAt la fuel i lastH stagnant acc).1 =
        (scrollAux heightAt la' fuel i lastH stagnant acc').1
  | 0, _, _, _, _, _, _, _ => rfl
  | fuel + 1, i, lastH, st, la, la', acc, acc' => by
    rw [scrollAux, scrollAux]
    by_cases h : 4 ≤ (if heightAt i = lastH then st + 1 else 0)
    · rw [if_pos h, if_pos h]
    · rw [if_neg h, if_neg h]
      exact scrollAux_iters_indep heightAt fuel (i + 1) (heightAt i) _ la la' _ _

/-- Once the observed heights are constant and equal to the stored
`last_height`, the loop stops within `4 - stagnant` further iterations. -/
theorem scrollAux_stagnation (heightAt : Nat → Nat) (linksAt : Nat → Finset String) (c : Nat) :
    ∀ (fuel i stagnant : Nat) (acc : Finset String), stagnant ≤ 3 →
      (∀ j, i ≤ j → heightAt j = c) → 4 - stagnant ≤ fuel →
      (scrollAux heightAt linksAt fuel i c stagnant acc).1 ≤ i + (4 - stagnant)
  | 0, _, _, _, hst, _, hfuel => by omega
  | fuel + 1, i, st, acc, hst, hconst, hfuel => by
    rw [scrollAux]
    have hstag : (if heightAt i = c then st + 1 else 0) = st + 1 := by
      rw [hconst i le_rfl]
      simp
    rw [hstag]
    by_cases h4 : 4 ≤ st + 1
    · rw [if_pos h4]
      show i + 1 ≤ i + (4 - st)
      omega
    · rw [if_neg h4, hconst i le_rfl]
      have hrec := scrollAux_stagnation heightAt linksAt c fuel (i + 1) (st + 1)
        (acc ∪ linksAt i) (by omega) (fun j hj => hconst j (by omega)) (by omega)
      omega

/-- Unrolling the scroll loop `n ≥ 1` steps: either it has already stopped
within `n` iterations, or it reaches iteration `i + n` with `last_height`
equal to the height observed at iteration `i + n - 1` and a stagnation
counter at most 3. -/
theorem scrollAux_progress (heightAt : Nat → Nat) (linksAt : Nat → Finset String) :
    ∀ (n fuel i lastH stagnant : Nat) (acc : Finset String), 1 ≤ n → n ≤ fuel →
      (scrollAux heightAt linksAt fuel i lastH stagnant acc).1 ≤ i + n ∨
      ∃ stagnant' acc', stagnant' ≤ 3 ∧
        scrollAux heightAt linksAt fuel i lastH stagnant acc =
          scrollAux heightAt linksAt (fuel - n) (i + n) (heightAt (i + n - 1)) stagnant' acc'
  | 0, _, _, _, _, _, h1, _ => by omega
  | 1, fuel, i, lastH, st, acc, _, hfuel => by
    cases fuel with
    | zero => omega
    | succ f =>
      rw [scrollAux]
      by_cases h4 : 4 ≤ (if heightAt i = lastH then st + 1 else 0)
      · rw [if_pos h4]
        left
        show i + 1 ≤ i + 1
        omega
      · rw [if_neg h4]
        right
        refine ⟨(if heightAt i = lastH then st + 1 else 0), acc ∪ linksAt i, by omega, ?_⟩
        simp
  | n + 2, fuel, i, lastH, st, acc, _, hfuel => by
    cases fuel with
    | zero => omega
    | succ f =>
      rw [scrollAux]
      by_cases h4 : 4 ≤ (if heightAt i = lastH then st + 1 else 0)
      · rw [if_pos h4]
        left
        show i + 1 ≤ i + (n + 2)
        omega
      · rw [if_neg h4]
        rcases scrollAux_progress heightAt linksAt (n + 1) f (i + 1) (heightAt i)
          (if heightAt i = lastH then st + 1 else 0) (acc ∪ linksAt i) (by omega) (by omega)
          with hl | ⟨st', acc', hst', heq⟩
        · left
          omega
        · right
          refine ⟨st', acc', hst', ?_⟩
          rw [heq]
          have e1 : f - (n + 1) = f + 1 - (n + 2) := by omega
          have e2 : i + 1 + (n + 1) = i + (n + 2) := by omega
          rw [e1, e2]

/-- C8: the scroll loop terminates as soon as the scroll height has been
unchanged for 4 consecutive iterations, even when the 40-iteration budget is
not exhausted (first conjunct: once heights are constant from iteration `k`,
the loop runs at most `k + 5` iterations); and a height change resets the
stagnation counter to zero, so heights that change at least every third
iteration keep the loop running through the full budget (second conjunct,
with heights `0,0,0,1,1,1,2,…`: three stagnant readings, then a reset,
repeatedly). -/
theorem c8_scroll_stagnation_terminates :
    (∀ (heightAt : Nat → Nat) (linksAt : Nat → Finset String) (k : Nat),
        (∀ j, k ≤ j → heightAt j = heightAt k) → k + 5 ≤ 40 →
        (discover_model_urls_scroll heightAt linksAt).1 ≤ k + 5) ∧
      ∀ linksAt : Nat → Finset String,
        (discover_model_urls_scroll (fun i => i / 3) linksAt).1 = 40 := by
  constructor
  · intro heightAt linksAt k hconst hk
    unfold discover_model_urls_scroll
    rcases scrollAux_progress heightAt linksAt (k + 1) 40 0 0 0 ∅ (by omega) (by omega) with
      hl | ⟨st', acc', hst', heq⟩
    · omega
    · rw [heq]
      have e1 : 0 + (k + 1) = k + 1 := by omega
      have e2 : 0 + (k + 1) - 1 = k := by omega
      rw [e2, e1]
      have hb := scrollAux_stagnation heightAt linksAt (heightAt k) (40 - (k + 1)) (k + 1) st'
        acc' hst' (fun j hj => hconst j (by omega)) (by omega)
      omega
  · intro linksAt
    unfold discover_model_urls_scroll
    rw [scrollAux_iters_indep (fun i => i / 3) 40 0 0 0 linksAt (fun _ => ∅) ∅ ∅]
    decide

/-- C8 (witness): with a constant height the loop stops within 5 iterations;
with heights `i / 3` it runs all 40 iterations. -/
theorem c8_scroll_stagnation_witness :
    (discover_model_urls_scroll (fun _ => 7) (fun _ => ∅)).1 ≤ 0 + 5 ∧
      (discover_model_urls_scroll (fun i => i / 3) (fun _ => ∅)).1 = 40 :=
  ⟨c8_scroll_stagnation_terminates.1 (fun _ => 7) (fun _ => ∅) 0 (fun _ _ => rfl) (by decide),
    c8_scroll_stagnation_terminates.2 (fun _ => ∅)⟩

end Thangs
